import Mathlib

/-!
Shallow embedding of the header-driven tabular text parsing engine in
`dissect/target/helpers/addons/command_parser/table_parser.py`.

Strings are modelled as `List Char` so that character offsets (as produced
by `re.finditer` match positions and used by Python slicing) are explicit.
-/

/-- Python `str` whitespace for the ASCII range (`\S` in `re` matches the
complement of this set). -/
def pyIsSpace (c : Char) : Bool :=
  c = ' ' || c = '\t' || c = '\n' || c = '\r' || c = '\x0b' || c = '\x0c'

/-- Python `str.lstrip()` (ASCII whitespace). -/
def pyLstrip (l : List Char) : List Char := l.dropWhile pyIsSpace

/-- Python `str.rstrip()` (ASCII whitespace). -/
def pyRstrip (l : List Char) : List Char := (l.reverse.dropWhile pyIsSpace).reverse

/-- Python `str.strip()` (ASCII whitespace). -/
def pyStrip (l : List Char) : List Char := pyRstrip (pyLstrip l)

/-- A `HeaderToken`: one match of the regex `\S+` over the line, with
`match.group()`, `match.start()` and `match.end()`. `end` is a Lean
keyword, so the field is called `stop`. -/
structure Token where
  text : List Char
  start : Nat
  stop : Nat
deriving Repr, DecidableEq

/-- Worker for `tokenize`: walks the characters with the current index,
accumulating the in-progress non-whitespace run (if any). -/
def tokensAux : List Char → Nat → Option Token → List Token
  | [], _, none => []
  | [], _, some t => [t]
  | c :: rest, i, none =>
    if pyIsSpace c then tokensAux rest (i + 1) none
    else tokensAux rest (i + 1) (some ⟨[c], i, i + 1⟩)
  | c :: rest, i, some t =>
    if pyIsSpace c then t :: tokensAux rest (i + 1) none
    else tokensAux rest (i + 1) (some ⟨t.text ++ [c], t.start, i + 1⟩)

/-- All maximal non-whitespace runs of a line together with their
character offsets, exactly as `re.finditer` with pattern `\S+` yields them. -/
def tokenize (line : List Char) : List Token := tokensAux line 0 none

/-- Python `line.split()` (split on whitespace, dropping empty fields). -/
def pySplit (line : List Char) : List (List Char) := (tokenize line).map Token.text

/-- Number of occurrences of `x` in `l` (`Counter` count). -/
def countOcc (x : Nat) (l : List Nat) : Nat := l.count x

/-- The distinct values of `l` in order of first occurrence
(the insertion order of a Python `Counter` built from `l`). -/
def firstOccurrences : List Nat → List Nat
  | [] => []
  | x :: xs => x :: (firstOccurrences xs).filter (fun y => y ≠ x)

/-- Among the candidate values `cands` (in first-occurrence order), the
first one whose count in `l` is maximal. -/
def argmaxCount (l : List Nat) : List Nat → Option Nat
  | [] => none
  | c :: cs =>
    match argmaxCount l cs with
    | none => some c
    | some b => if countOcc b l > countOcc c l then some b else some c

/-- Embeds `Counter(l).most_common(1)[0][0]`: the most common value of `l`, ties
broken in favour of the first-encountered value; `none` iff `l` is empty. -/
def mostCommon (l : List Nat) : Option Nat := argmaxCount l (firstOccurrences l)

/-- A `ColumnDescriptor`: the dictionaries built by
`_simple_column_detection` / `_analyze_with_sample_data` with keys
`name`, `start`, `end` (here `stop`) and `width`.  `width` is an `Int`
because `col_end - col_start` may be negative in Python. -/
structure Column where
  name : List Char
  start : Nat
  stop : Option Nat
  width : Option Int
deriving Repr, DecidableEq

/-- Embeds `TableParser._simple_column_detection`: each column ends where the
next header word starts; the last column is unbounded. -/
def simpleColumnDetection : List Token → List Column
  | [] => []
  | [w] => [⟨w.text, w.start, none, none⟩]
  | w :: w2 :: rest =>
    ⟨w.text, w.start, some w2.start, some ((w2.start : Int) - (w.start : Int))⟩ ::
      simpleColumnDetection (w2 :: rest)

/-- The start offsets of the `i`-th field of each sample line that has at
least `i + 1` fields (the `field_starts` lists of
`_analyze_with_sample_data`). -/
def fieldStartsAt (allFieldSplits : List (List Token)) (i : Nat) : List Nat :=
  allFieldSplits.filterMap (fun fs => (fs.get? i).map Token.start)

/-- Worker for `_analyze_with_sample_data`: processes the header words in
order, carrying the index `i` of the current word. -/
def analyzeColsAux (allFieldSplits : List (List Token)) : List Token → Nat → List Column
  | [], _ => []
  | w :: ws, i =>
    let colStart :=
      match mostCommon (fieldStartsAt allFieldSplits i) with
      | some s => s
      | none => w.start
    match ws with
    | [] => [⟨w.text, colStart, none, none⟩]
    | w2 :: rest =>
      let colEnd :=
        match mostCommon (fieldStartsAt allFieldSplits (i + 1)) with
        | some s => s
        | none => w2.start
      ⟨w.text, colStart, some colEnd, some ((colEnd : Int) - (colStart : Int))⟩ ::
        analyzeColsAux allFieldSplits (w2 :: rest) (i + 1)

/-- Embeds `TableParser._analyze_with_sample_data`: refine each column's start
(and the next column's start, used as this column's end) to the most
common observed field start offset across the sample lines. -/
def analyzeWithSampleData (headerWords : List Token) (sampleLines : List (List Char)) :
    List Column :=
  analyzeColsAux (sampleLines.map tokenize) headerWords 0

/-- Embeds `TableParser._parse_header_smart` applied to the already-stripped
header line kept by `__init__`. -/
def parseHeaderSmart (headerLine : List Char) (sampleLines : List (List Char)) :
    List Column :=
  if headerLine = [] then []
  else
    let headerWords := tokenize headerLine
    if headerWords = [] then []
    else if sampleLines ≠ [] then analyzeWithSampleData headerWords sampleLines
    else simpleColumnDetection headerWords

/-- The state built by `TableParser.__init__`. -/
structure TableParser where
  header_line : List Char
  sample_data_lines : List (List Char)
  columns : List Column
deriving Repr, DecidableEq

/-- Embeds `TableParser.__init__(header_line, sample_data_lines)`: strips the
header line and runs `_parse_header_smart`. -/
def mkTableParser (headerLine : List Char) (sampleLines : List (List Char)) : TableParser :=
  let h := pyStrip headerLine
  ⟨h, sampleLines, parseHeaderSmart h sampleLines⟩

/-- A Python `dict` with `str` keys and values, in insertion order. -/
abbrev Row : Type := List (List Char × List Char)

/-- Assignment `d[k] = v` on a Python dict: update in place if the key is present,
otherwise append at the end (insertion order is preserved). -/
def dictInsert (d : Row) (k v : List Char) : Row :=
  if d.any (fun p => p.1 = k) then d.map (fun p => if p.1 = k then (k, v) else p)
  else d ++ [(k, v)]

/-- Lookup `d.get(k)` on a Python dict. -/
def dictGet (d : Row) (k : List Char) : Option (List Char) :=
  (d.find? (fun p => p.1 = k)).map Prod.snd

/-- The keys of a dict, in insertion order. -/
def dictKeys (d : Row) : List (List Char) := d.map Prod.fst

/-- Python `line[start:stop]` for non-negative bounds. -/
def pySlice (line : List Char) (start stop : Nat) : List Char :=
  (line.take stop).drop start

/-- The value `_parse_positional` computes for one column: slice the line
at the column's offsets and strip; the last column (or an unbounded one)
takes everything from its start; an out-of-range start yields `""`. -/
def posColValue (line : List Char) (col : Column) (isLast : Bool) : List Char :=
  match col.stop, isLast with
  | none, _ => if col.start < line.length then pyStrip (line.drop col.start) else []
  | some _, true => if col.start < line.length then pyStrip (line.drop col.start) else []
  | some e, false => if col.start < line.length then pyStrip (pySlice line col.start e) else []

/-- The shared loop shape of `_parse_positional`, `_parse_field_based`
and `map_columns_to_fields`: for each element of the list, in order,
insert one key/value pair into the result dict; the value function also
receives the running index `i` of the element. -/
def insertAllAux {α : Type} (key : α → List Char) (val : α → Nat → List Char) (d : Row) :
    List α → Nat → Row
  | [], _ => d
  | x :: rest, i => insertAllAux key val (dictInsert d (key x) (val x i)) rest (i + 1)

/-- Embeds `TableParser._parse_positional`. -/
def parsePositional (columns : List Column) (line : List Char) : Row :=
  insertAllAux Column.name (fun c i => posColValue line c (i == columns.length - 1))
    [] columns 0

/-- Embeds `" ".join(fields)`. -/
def joinSpace : List (List Char) → List Char
  | [] => []
  | [x] => x
  | x :: y :: rest => x ++ ' ' :: joinSpace (y :: rest)

/-- The value `_parse_field_based` computes for the column at index `i`:
its field if there is one (the last column absorbing all remaining
fields), otherwise `""`. -/
def fieldValue (fields : List (List Char)) (i : Nat) (isLast : Bool) : List Char :=
  if i < fields.length then
    if isLast then joinSpace (fields.drop i) else ((fields.get? i).getD [])
  else []

/-- Embeds `TableParser._parse_field_based`. -/
def parseFieldBased (columns : List Column) (line : List Char) : Row :=
  insertAllAux Column.name (fun _ i => fieldValue (pySplit line) i (i == columns.length - 1))
    [] columns 0

/-- Embeds `TableParser.parse_data_line`: compute both candidate rows and keep
the field-based one when its dict has as many keys as there are columns,
the positional one otherwise. -/
def parseDataLine (p : TableParser) (line : List Char) : Row :=
  if p.columns = [] then []
  else
    let line := pyRstrip line
    let fieldResult := parseFieldBased p.columns line
    if fieldResult.length = p.columns.length then fieldResult
    else parsePositional p.columns line


/-- The fixed `header_indicators` vocabulary of
`LinuxTableCommandParser.detect_header_line`. -/
def headerIndicators : List (List Char) :=
  ["PID", "PPID", "USER", "TIME", "CMD", "COMMAND", "STAT", "RSS", "VSZ",
   "PORT", "PROTO", "STATE", "ADDRESS", "NAME", "TYPE", "SIZE"].map String.toList

/-- Python `str.upper()` on the ASCII range. -/
def pyUpper (l : List Char) : List Char := l.map Char.toUpper

/-- Whether the stripped line starts with `#`. -/
def startsWithHash : List Char → Bool
  | '#' :: _ => true
  | _ => false

/-- Whether the stripped line starts with `//`. -/
def startsWithSlashSlash : List Char → Bool
  | '/' :: '/' :: _ => true
  | _ => false

/-- The loop body of `detect_header_line` for one line: the line (after
stripping) is non-blank, is not a comment, has at least 2
whitespace-separated words, and at least 2 of them (upper-cased) are in
the vocabulary. -/
def isHeaderLine (rawLine : List Char) : Bool :=
  let line := pyStrip rawLine
  if line = [] || startsWithHash line || startsWithSlashSlash line then false
  else
    let words := pySplit line
    if 2 ≤ words.length then
      2 ≤ (words.filter (fun w => headerIndicators.contains (pyUpper w))).length
    else false

/-- Worker for `detect_header_line`: the `enumerate` loop with the
running index. -/
def detectHeaderAux : List (List Char) → Nat → Option Nat
  | [], _ => none
  | l :: rest, i => if isHeaderLine l then some i else detectHeaderAux rest (i + 1)

/-- Embeds `LinuxTableCommandParser.detect_header_line`. -/
def detectHeaderLine (lines : List (List Char)) : Option Nat :=
  detectHeaderAux lines 0

/-- Embeds `LinuxTableCommandParser.parse_table_output`: skip, locate the
header, build a `TableParser` over up to 5 non-blank sample lines, and
parse every non-blank data line, keeping non-empty rows. -/
def parseTableOutput (lines : List (List Char)) (skipLines : Nat) : List Row :=
  let lines := lines.drop skipLines
  match detectHeaderLine lines with
  | none => []
  | some headerIndex =>
    let headerLine := (lines.get? headerIndex).getD []
    let dataLines := lines.drop (headerIndex + 1)
    let sampleLines := (dataLines.take 5).filter (fun l => pyStrip l ≠ [])
    let tp := mkTableParser headerLine sampleLines
    dataLines.filterMap (fun rawLine =>
      let line := pyStrip rawLine
      if line = [] then none
      else
        let parsedRow := parseDataLine tp line
        if parsedRow = [] then none else some parsedRow)

/-- Python `str.lower()` on the ASCII range. -/
def pyLower (l : List Char) : List Char := l.map Char.toLower

/-- Whether `c` matches `[a-zA-Z0-9]`. -/
def isAlnumAscii (c : Char) : Bool :=
  ('a' ≤ c && c ≤ 'z') || ('A' ≤ c && c ≤ 'Z') || ('0' ≤ c && c ≤ '9')

/-- Embeds the `re.sub` that turns each character of the class
`[^a-zA-Z0-9]` into an underscore. -/
def replaceNonAlnum (l : List Char) : List Char :=
  l.map (fun c => if isAlnumAscii c then c else '_')

/-- Embeds the `re.sub` that collapses each run `_+` of underscores to one. -/
def collapseUnderscores : List Char → List Char
  | [] => []
  | [c] => [c]
  | c :: c2 :: rest =>
    if c = '_' && c2 = '_' then collapseUnderscores (c2 :: rest)
    else c :: collapseUnderscores (c2 :: rest)

/-- Python `s.strip('_')`. -/
def stripUnderscores (l : List Char) : List Char :=
  ((l.dropWhile (fun c => c = '_')).reverse.dropWhile (fun c => c = '_')).reverse

/-- Embeds `LinuxTableCommandParser.normalize_column_name`: lowercase, map
non-alphanumeric characters to `_`, collapse and strip underscores; if
nothing remains, fall back to the lowercased original name. -/
def normalizeColumnName (name : List Char) : List Char :=
  let normalized := stripUnderscores (collapseUnderscores (replaceNonAlnum (pyLower name)))
  if normalized = [] then pyLower name else normalized

/-- Embeds `column_mapping.get(k)` followed by Python truthiness (`if not
field_name`): an empty-string value counts as absent. -/
def lookupTruthy (m : Row) (k : List Char) : Option (List Char) :=
  match dictGet m k with
  | some v => if v = [] then none else some v
  | none => none

/-- The field name `map_columns_to_fields` picks for one raw column
name: exact lookup, then normalized lookup, then the normalized name. -/
def resolveFieldName (columnMapping : Row) (columnName : List Char) : List Char :=
  match lookupTruthy columnMapping columnName with
  | some f => f
  | none =>
    match lookupTruthy columnMapping (normalizeColumnName columnName) with
    | some f => f
    | none => normalizeColumnName columnName

/-- Embeds `LinuxTableCommandParser.map_columns_to_fields`. -/
def mapColumnsToFields (row : Row) (columnMapping : Row) : Row :=
  insertAllAux (fun p => resolveFieldName columnMapping p.1) (fun p _ => p.2) [] row 0

/-- The full pipeline of the spec's idempotence property: locate the
header, infer columns, parse rows, normalize each row through the alias
table. -/
def fullPipeline (lines : List (List Char)) (columnMapping : Row) : List Row :=
  (parseTableOutput lines 0).map (fun row => mapColumnsToFields row columnMapping)

/-- The spec's description of a header line: after stripping, the line is
non-blank and not a comment, it has at least 2 whitespace-separated
tokens, and at least 2 of them belong (case-insensitively) to the fixed
header vocabulary. -/
def QualifiesAsHeader (rawLine : List Char) : Prop :=
  pyStrip rawLine ≠ [] ∧
  startsWithHash (pyStrip rawLine) = false ∧
  startsWithSlashSlash (pyStrip rawLine) = false ∧
  2 ≤ (pySplit (pyStrip rawLine)).length ∧
  2 ≤ ((pySplit (pyStrip rawLine)).filter
        (fun w => headerIndicators.contains (pyUpper w))).length

instance (rawLine : List Char) : Decidable (QualifiesAsHeader rawLine) := by
  unfold QualifiesAsHeader
  infer_instance

/-- The tokens of a line, seen from a lower bound `lo`: each token starts
no earlier than `lo`, is non-empty (`start < stop`), and the next tokens
start no earlier than its `stop`. -/
def tokenChain : Nat → List Token → Prop
  | _, [] => True
  | lo, t :: ts => lo ≤ t.start ∧ t.start < t.stop ∧ tokenChain t.stop ts

/-! ### Lemmas about the dict model -/

theorem mem_dictKeys_of_any (d : Row) (k : List Char)
    (h : d.any (fun p => p.1 = k) = true) : k ∈ dictKeys d := by
  rcases List.any_eq_true.mp h with ⟨p, hp, hpk⟩
  exact List.mem_map.mpr ⟨p, hp, of_decide_eq_true hpk⟩

theorem dictInsert_of_not_mem (d : Row) (k v : List Char) (h : k ∉ dictKeys d) :
    dictInsert d k v = d ++ [(k, v)] := by
  unfold dictInsert
  rw [if_neg]
  intro hany
  exact h (mem_dictKeys_of_any d k hany)

theorem dictGet_map_update_self (d : Row) (k v : List Char) (h : k ∈ dictKeys d) :
    dictGet (d.map (fun p => if p.1 = k then (k, v) else p)) k = some v := by
  induction d with
  | nil => simp [dictKeys] at h
  | cons p rest ih =>
    by_cases hp : p.1 = k
    · simp [dictGet, List.find?, hp]
    · have h' : k ∈ dictKeys rest := by
        rcases List.mem_map.mp h with ⟨q, hq, hqk⟩
        rcases List.mem_cons.mp hq with hq1 | hq2
        · exact absurd (hq1 ▸ hqk) hp
        · exact List.mem_map.mpr ⟨q, hq2, hqk⟩
      simpa [dictGet, List.find?, hp, Ne.symm (hp ∘ Eq.symm)] using ih h'

theorem dictGet_cons (x : List Char × List Char) (d : Row) (k : List Char) :
    dictGet (x :: d) k = if x.1 = k then some x.2 else dictGet d k := by
  by_cases h : x.1 = k <;> simp [dictGet, List.find?, h]

theorem dictGet_map_update_ne (d : Row) (k v k' : List Char) (hne : k' ≠ k) :
    dictGet (d.map (fun p => if p.1 = k then (k, v) else p)) k' = dictGet d k' := by
  have hne' : ¬(k = k') := fun he => hne he.symm
  induction d with
  | nil => rfl
  | cons p rest ih =>
    simp only [List.map_cons]
    rw [dictGet_cons, dictGet_cons]
    by_cases hp : p.1 = k
    · simp [hp, hne', ih]
    · by_cases hp2 : p.1 = k' <;> simp [hp, hp2, hne, ih]

theorem dictGet_insert_self (d : Row) (k v : List Char) :
    dictGet (dictInsert d k v) k = some v := by
  unfold dictInsert
  split
  · exact dictGet_map_update_self d k v (mem_dictKeys_of_any d k (by assumption))
  · unfold dictGet
    rw [List.find?_append]
    have h1 : List.find? (fun p => decide (p.1 = k)) d = none := by
      rw [List.find?_eq_none]
      intro p hp hpk
      rename_i hany
      exact hany (List.any_eq_true.mpr ⟨p, hp, hpk⟩)
    rw [h1]
    simp [List.find?]

theorem dictGet_insert_ne (d : Row) (k v k' : List Char) (hne : k' ≠ k) :
    dictGet (dictInsert d k v) k' = dictGet d k' := by
  unfold dictInsert
  split
  · exact dictGet_map_update_ne d k v k' hne
  · unfold dictGet
    rw [List.find?_append]
    have hk : ¬(k = k') := fun he => hne he.symm
    have h2 : List.find? (fun p => decide (p.1 = k')) [(k, v)] = none := by
      simp [List.find?, hk]
    rw [h2, Option.or_none]

theorem dictKeys_append (d e : Row) : dictKeys (d ++ e) = dictKeys d ++ dictKeys e := by
  simp [dictKeys]

theorem row_length_eq_keys_length (d : Row) : d.length = (dictKeys d).length := by
  simp [dictKeys]

/-! ### Lemmas about the shared insertion loop -/

theorem insertAllAux_get_ne {α : Type} (key : α → List Char) (val : α → Nat → List Char)
    (k : List Char) (xs : List α) :
    ∀ (d : Row) (i : Nat), (∀ x ∈ xs, key x ≠ k) →
      dictGet (insertAllAux key val d xs i) k = dictGet d k := by
  induction xs with
  | nil => intro d i _; rfl
  | cons x rest ih =>
    intro d i h
    simp only [insertAllAux]
    rw [ih _ (i + 1) (fun y hy => h y (List.mem_cons_of_mem _ hy))]
    exact dictGet_insert_ne d (key x) (val x i) k
      (fun he => h x (List.mem_cons_self _ _) he.symm)

theorem insertAllAux_keys {α : Type} (key : α → List Char) (val : α → Nat → List Char)
    (xs : List α) :
    ∀ (d : Row) (i : Nat), (∀ x ∈ xs, key x ∉ dictKeys d) → (xs.map key).Nodup →
      dictKeys (insertAllAux key val d xs i) = dictKeys d ++ xs.map key := by
  induction xs with
  | nil => intro d i _ _; simp [insertAllAux]
  | cons x rest ih =>
    intro d i hfresh hnd
    simp only [insertAllAux, List.map_cons]
    rw [dictInsert_of_not_mem d (key x) (val x i) (hfresh x (List.mem_cons_self _ _))]
    have hnd' : (rest.map key).Nodup := by
      simp only [List.map_cons, List.nodup_cons] at hnd
      exact hnd.2
    have hxnotin : key x ∉ rest.map key := by
      simp only [List.map_cons, List.nodup_cons] at hnd
      exact hnd.1
    rw [ih (d ++ [(key x, val x i)]) (i + 1) ?fresh hnd']
    · rw [dictKeys_append]
      simp [dictKeys]
    case fresh =>
      intro y hy
      rw [dictKeys_append]
      intro hmem
      rcases List.mem_append.mp hmem with h1 | h2
      · exact hfresh y (List.mem_cons_of_mem _ hy) h1
      · have : key y = key x := by simpa [dictKeys] using h2
        exact hxnotin (this ▸ List.mem_map_of_mem key hy)

theorem insertAllAux_get_mem {α : Type} (key : α → List Char) (val : α → Nat → List Char)
    (xs : List α) :
    ∀ (d : Row) (i : Nat) (j : Nat) (hj : j < xs.length), (xs.map key).Nodup →
      dictGet (insertAllAux key val d xs i) (key (xs.get ⟨j, hj⟩)) =
        some (val (xs.get ⟨j, hj⟩) (i + j)) := by
  induction xs with
  | nil => intro d i j hj _; exact absurd hj (Nat.not_lt_zero j)
  | cons x rest ih =>
    intro d i j hj hnd
    have hxnotin : key x ∉ rest.map key := by
      simp only [List.map_cons, List.nodup_cons] at hnd
      exact hnd.1
    have hnd' : (rest.map key).Nodup := by
      simp only [List.map_cons, List.nodup_cons] at hnd
      exact hnd.2
    match j with
    | 0 =>
      simp only [insertAllAux, List.get]
      rw [insertAllAux_get_ne key val (key x) rest _ (i + 1) ?h]
      · rw [Nat.add_zero]
        exact dictGet_insert_self d (key x) (val x i)
      case h =>
        intro y hy he
        exact hxnotin (he ▸ List.mem_map_of_mem key hy)
    | Nat.succ j' =>
      simp only [insertAllAux, List.get]
      rw [ih _ (i + 1) j' (Nat.lt_of_succ_lt_succ hj) hnd']
      have harith : i + 1 + j' = i + (j' + 1) := by omega
      rw [harith]

/-! ### Lemmas about tokenization offsets -/

theorem tokenChain_mono (l : List Token) :
    ∀ lo lo', lo' ≤ lo → tokenChain lo l → tokenChain lo' l := by
  cases l with
  | nil => intro lo lo' _ _; trivial
  | cons t ts =>
    intro lo lo' hle h
    exact ⟨Nat.le_trans hle h.1, h.2.1, h.2.2⟩

theorem tokensAux_chain (s : List Char) :
    ∀ i : Nat,
      tokenChain i (tokensAux s i none) ∧
      ∀ t : Token, t.start < t.stop → t.stop = i →
        tokenChain t.start (tokensAux s i (some t)) := by
  induction s with
  | nil =>
    intro i
    refine ⟨trivial, ?_⟩
    intro t h1 _
    exact ⟨Nat.le_refl _, h1, trivial⟩
  | cons c rest ih =>
    intro i
    constructor
    · by_cases hc : pyIsSpace c
      · simpa [tokensAux, hc] using
          tokenChain_mono _ (i + 1) i (Nat.le_succ i) (ih (i + 1)).1
      · simpa [tokensAux, hc] using
          (ih (i + 1)).2 ⟨[c], i, i + 1⟩ (Nat.lt_succ_self i) rfl
    · intro t h1 h2
      by_cases hc : pyIsSpace c
      · simp only [tokensAux, hc, if_pos]
        refine ⟨Nat.le_refl _, h1, ?_⟩
        exact tokenChain_mono _ (i + 1) t.stop (h2 ▸ Nat.le_succ i) (ih (i + 1)).1
      · simp only [tokensAux, hc, if_neg, Bool.false_eq_true, not_false_eq_true]
        exact (ih (i + 1)).2 ⟨t.text ++ [c], t.start, i + 1⟩
          (Nat.lt_succ_of_lt (h2 ▸ h1)) rfl

theorem tokenize_chain (s : List Char) : tokenChain 0 (tokenize s) :=
  (tokensAux_chain s 0).1

/-! ### Structure of the inferred column lists -/

theorem simpleColumnDetection_names (ts : List Token) :
    (simpleColumnDetection ts).map Column.name = ts.map Token.text := by
  induction ts with
  | nil => rfl
  | cons w ws ih =>
    cases ws with
    | nil => rfl
    | cons w2 rest => simpa [simpleColumnDetection] using ih

theorem analyzeColsAux_names (A : List (List Token)) (ts : List Token) :
    ∀ i : Nat, (analyzeColsAux A ts i).map Column.name = ts.map Token.text := by
  induction ts with
  | nil => intro i; rfl
  | cons w ws ih =>
    intro i
    cases ws with
    | nil => rfl
    | cons w2 rest => simpa [analyzeColsAux] using ih (i + 1)

theorem simpleColumnDetection_last (ts : List Token) :
    ∀ c : Column, (simpleColumnDetection ts).getLast? = some c → c.stop = none := by
  induction ts with
  | nil =>
    intro c h
    rw [show simpleColumnDetection [] = [] from rfl] at h
    simp [List.getLast?] at h
  | cons w ws ih =>
    cases ws with
    | nil =>
      intro c h
      simp only [simpleColumnDetection, List.getLast?_singleton, Option.some.injEq] at h
      rw [← h]
    | cons w2 rest =>
      intro c h
      apply ih c
      simp only [simpleColumnDetection] at h
      have hne : simpleColumnDetection (w2 :: rest) ≠ [] := by
        intro he
        have hn := simpleColumnDetection_names (w2 :: rest)
        rw [he] at hn
        simp at hn
      obtain ⟨d, ds, hds⟩ := List.exists_cons_of_ne_nil hne
      rw [hds] at h ⊢
      rw [List.getLast?_cons_cons] at h
      exact h

theorem analyzeColsAux_last (A : List (List Token)) (ts : List Token) :
    ∀ (i : Nat) (c : Column), (analyzeColsAux A ts i).getLast? = some c → c.stop = none := by
  induction ts with
  | nil =>
    intro i c h
    rw [show analyzeColsAux A [] i = [] from rfl] at h
    simp [List.getLast?] at h
  | cons w ws ih =>
    cases ws with
    | nil =>
      intro i c h
      simp only [analyzeColsAux, List.getLast?_singleton, Option.some.injEq] at h
      rw [← h]
    | cons w2 rest =>
      intro i c h
      apply ih (i + 1) c
      simp only [analyzeColsAux] at h
      have hne : analyzeColsAux A (w2 :: rest) (i + 1) ≠ [] := by
        intro he
        have hn := analyzeColsAux_names A (w2 :: rest) (i + 1)
        rw [he] at hn
        simp at hn
      obtain ⟨d, ds, hds⟩ := List.exists_cons_of_ne_nil hne
      rw [hds] at h ⊢
      rw [List.getLast?_cons_cons] at h
      exact h

theorem simpleColumnDetection_start_lt_stop (ts : List Token) :
    ∀ lo, tokenChain lo ts →
      ∀ c ∈ simpleColumnDetection ts, ∀ e, c.stop = some e → c.start < e := by
  induction ts with
  | nil => intro lo _ c hc; simp [simpleColumnDetection] at hc
  | cons w ws ih =>
    cases ws with
    | nil =>
      intro lo _ c hc e he
      simp only [simpleColumnDetection, List.mem_singleton] at hc
      rw [hc] at he
      simp at he
    | cons w2 rest =>
      intro lo hchain c hc e he
      rcases List.mem_cons.mp hc with h1 | h2
      · rw [h1] at he
        simp only [Option.some.injEq] at he
        rw [h1, ← he]
        have hws : w.start < w.stop := hchain.2.1
        have hnext : w.stop ≤ w2.start := hchain.2.2.1
        exact Nat.lt_of_lt_of_le hws hnext
      · exact ih w.stop hchain.2.2 c h2 e he

/-! ### Parser-level consequences -/

theorem mkTableParser_columns_names (headerLine : List Char) (sampleLines : List (List Char)) :
    (mkTableParser headerLine sampleLines).columns.map Column.name =
      (tokenize (pyStrip headerLine)).map Token.text := by
  show (parseHeaderSmart (pyStrip headerLine) sampleLines).map Column.name = _
  unfold parseHeaderSmart
  by_cases h0 : pyStrip headerLine = []
  · rw [if_pos h0, h0]
    rfl
  · rw [if_neg h0]
    simp only []
    by_cases h1 : tokenize (pyStrip headerLine) = []
    · rw [if_pos h1, h1]
      rfl
    · rw [if_neg h1]
      by_cases h2 : sampleLines ≠ []
      · rw [if_pos h2]
        exact analyzeColsAux_names _ _ 0
      · rw [if_neg h2]
        exact simpleColumnDetection_names _

theorem mkTableParser_columns_last (headerLine : List Char) (sampleLines : List (List Char)) :
    ∀ c : Column, (mkTableParser headerLine sampleLines).columns.getLast? = some c →
      c.stop = none := by
  show ∀ c : Column, (parseHeaderSmart (pyStrip headerLine) sampleLines).getLast? = some c → _
  unfold parseHeaderSmart
  by_cases h0 : pyStrip headerLine = []
  · rw [if_pos h0]
    intro c h
    simp [List.getLast?] at h
  · rw [if_neg h0]
    simp only []
    by_cases h1 : tokenize (pyStrip headerLine) = []
    · rw [if_pos h1]
      intro c h
      simp [List.getLast?] at h
    · rw [if_neg h1]
      by_cases h2 : sampleLines ≠ []
      · rw [if_pos h2]
        exact analyzeColsAux_last _ _ 0
      · rw [if_neg h2]
        exact simpleColumnDetection_last _

theorem mkTableParser_noSamples_start_lt_stop (headerLine : List Char) :
    ∀ c ∈ (mkTableParser headerLine []).columns, ∀ e, c.stop = some e → c.start < e := by
  show ∀ c ∈ parseHeaderSmart (pyStrip headerLine) [], _
  unfold parseHeaderSmart
  by_cases h0 : pyStrip headerLine = []
  · rw [if_pos h0]
    intro c hc
    simp at hc
  · rw [if_neg h0]
    simp only []
    by_cases h1 : tokenize (pyStrip headerLine) = []
    · rw [if_pos h1]
      intro c hc
      simp at hc
    · rw [if_neg h1]
      rw [if_neg (by simp : ¬(([] : List (List Char)) ≠ []))]
      exact simpleColumnDetection_start_lt_stop _ 0 (tokenize_chain _)

theorem parseFieldBased_get (columns : List Column) (line : List Char)
    (hnd : (columns.map Column.name).Nodup) (j : Nat) (hj : j < columns.length) :
    dictGet (parseFieldBased columns line) ((columns.get ⟨j, hj⟩).name) =
      some (fieldValue (pySplit line) j (j == columns.length - 1)) := by
  have h := insertAllAux_get_mem Column.name
      (fun _ i => fieldValue (pySplit line) i (i == columns.length - 1))
      columns [] 0 j hj hnd
  simpa using h

theorem parsePositional_get (columns : List Column) (line : List Char)
    (hnd : (columns.map Column.name).Nodup) (j : Nat) (hj : j < columns.length) :
    dictGet (parsePositional columns line) ((columns.get ⟨j, hj⟩).name) =
      some (posColValue line (columns.get ⟨j, hj⟩) (j == columns.length - 1)) := by
  have h := insertAllAux_get_mem Column.name
      (fun c i => posColValue line c (i == columns.length - 1))
      columns [] 0 j hj hnd
  simpa using h

theorem parseFieldBased_keys (columns : List Column) (line : List Char)
    (hnd : (columns.map Column.name).Nodup) :
    dictKeys (parseFieldBased columns line) = columns.map Column.name := by
  have h := insertAllAux_keys Column.name
      (fun _ i => fieldValue (pySplit line) i (i == columns.length - 1))
      columns [] 0 (fun x _ => by simp [dictKeys]) hnd
  simpa [dictKeys] using h

theorem parsePositional_keys (columns : List Column) (line : List Char)
    (hnd : (columns.map Column.name).Nodup) :
    dictKeys (parsePositional columns line) = columns.map Column.name := by
  have h := insertAllAux_keys Column.name
      (fun c i => posColValue line c (i == columns.length - 1))
      columns [] 0 (fun x _ => by simp [dictKeys]) hnd
  simpa [dictKeys] using h

theorem parseFieldBased_length (columns : List Column) (line : List Char)
    (hnd : (columns.map Column.name).Nodup) :
    (parseFieldBased columns line).length = columns.length := by
  rw [row_length_eq_keys_length, parseFieldBased_keys columns line hnd]
  simp

theorem parseDataLine_eq_fieldBased (p : TableParser) (line : List Char)
    (hne : p.columns ≠ []) (hnd : (p.columns.map Column.name).Nodup) :
    parseDataLine p line = parseFieldBased p.columns (pyRstrip line) := by
  unfold parseDataLine
  rw [if_neg hne]
  simp only []
  rw [if_pos (parseFieldBased_length p.columns (pyRstrip line) hnd)]

theorem mapColumnsToFields_keys (row columnMapping : Row)
    (hnd : (row.map (fun p => resolveFieldName columnMapping p.1)).Nodup) :
    dictKeys (mapColumnsToFields row columnMapping) =
      row.map (fun p => resolveFieldName columnMapping p.1) := by
  have h := insertAllAux_keys (fun p => resolveFieldName columnMapping p.1)
      (fun p _ => p.2) row [] 0 (fun x _ => by simp [dictKeys]) hnd
  simpa [dictKeys] using h

theorem mapColumnsToFields_length (row columnMapping : Row)
    (hnd : (row.map (fun p => resolveFieldName columnMapping p.1)).Nodup) :
    (mapColumnsToFields row columnMapping).length = row.length := by
  rw [row_length_eq_keys_length, mapColumnsToFields_keys row columnMapping hnd]
  simp

theorem mapColumnsToFields_get (row columnMapping : Row)
    (hnd : (row.map (fun p => resolveFieldName columnMapping p.1)).Nodup)
    (p : List Char × List Char) (hp : p ∈ row) :
    dictGet (mapColumnsToFields row columnMapping)
      (resolveFieldName columnMapping p.1) = some p.2 := by
  rcases List.mem_iff_get.mp hp with ⟨j, hget⟩
  have h := insertAllAux_get_mem (fun q => resolveFieldName columnMapping q.1)
      (fun q _ => q.2) row [] 0 j.1 j.2 hnd
  simp only [Fin.eta] at h
  rw [hget] at h
  simpa using h

/-! ### Header detection -/

theorem detectHeaderAux_some (lines : List (List Char)) :
    ∀ (k m : Nat), detectHeaderAux lines k = some m →
      k ≤ m ∧ m - k < lines.length ∧
      (∃ l, lines.get? (m - k) = some l ∧ isHeaderLine l = true) ∧
      (∀ j l', j < m - k → lines.get? j = some l' → isHeaderLine l' = false) := by
  induction lines with
  | nil => intro k m h; simp [detectHeaderAux] at h
  | cons l rest ih =>
    intro k m h
    simp only [detectHeaderAux] at h
    by_cases hl : isHeaderLine l = true
    · rw [if_pos hl] at h
      have hkm : k = m := Option.some.inj h
      subst hkm
      refine ⟨Nat.le_refl k, by simp, ⟨l, by simp, hl⟩, ?_⟩
      intro j l' hj _
      simp at hj
    · rw [if_neg hl] at h
      rcases ih (k + 1) m h with ⟨hle, hlt, ⟨l0, hl0, hl0h⟩, hfirst⟩
      have hmk : m - k = (m - (k + 1)) + 1 := by omega
      refine ⟨by omega, by simp; omega, ⟨l0, ?_, hl0h⟩, ?_⟩
      · rw [hmk]
        simpa using hl0
      · intro j l' hj hget
        match j with
        | 0 =>
          have : l = l' := by simpa using hget
          rw [← this]
          exact Bool.not_eq_true _ ▸ (by simpa using hl)
        | Nat.succ j' =>
          apply hfirst j' l' (by omega)
          simpa using hget

theorem detectHeaderAux_none (lines : List (List Char)) :
    ∀ k : Nat, detectHeaderAux lines k = none ↔ ∀ l ∈ lines, isHeaderLine l = false := by
  induction lines with
  | nil => intro k; simp [detectHeaderAux]
  | cons l rest ih =>
    intro k
    simp only [detectHeaderAux]
    by_cases hl : isHeaderLine l = true
    · rw [if_pos hl]
      simp [hl]
    · rw [if_neg hl]
      rw [ih (k + 1)]
      constructor
      · intro h l' hl'
        rcases List.mem_cons.mp hl' with h1 | h2
        · rw [h1]
          exact Bool.not_eq_true _ ▸ (by simpa using hl)
        · exact h l' h2
      · intro h l' hl'
        exact h l' (List.mem_cons_of_mem _ hl')

theorem isHeaderLine_iff (rawLine : List Char) :
    isHeaderLine rawLine = true ↔ QualifiesAsHeader rawLine := by
  unfold isHeaderLine QualifiesAsHeader
  by_cases h0 : pyStrip rawLine = []
  · simp [h0]
  · by_cases h1 : startsWithHash (pyStrip rawLine) = true
    · simp [h0, h1]
    · by_cases h2 : startsWithSlashSlash (pyStrip rawLine) = true
      · simp [h0, h1, h2]
      · by_cases h3 : 2 ≤ (pySplit (pyStrip rawLine)).length
        · simp [h0, h1, h2, h3]
        · simp [h0, h1, h2, h3]

/-! ### Claims -/

/-- C1 (counterexample): the data line `"rootx12"` has 1 whitespace field
while the parser for header `"USER PID COMMAND"` has 3 columns, yet
`parse_data_line` returns the field-based result, not the positional one:
the selection compares the size of the field-based dict (always one entry
per distinct column name) with the column count, not the line's field
count. -/
theorem C1_counterexample :
    ((pySplit (pyRstrip "rootx12".toList)).length ≠
      (mkTableParser "USER PID COMMAND".toList []).columns.length) ∧
    parseDataLine (mkTableParser "USER PID COMMAND".toList []) "rootx12".toList =
      parseFieldBased (mkTableParser "USER PID COMMAND".toList []).columns
        (pyRstrip "rootx12".toList) ∧
    parseDataLine (mkTableParser "USER PID COMMAND".toList []) "rootx12".toList ≠
      parsePositional (mkTableParser "USER PID COMMAND".toList []).columns
        (pyRstrip "rootx12".toList) := by
  refine ⟨by decide, by decide, by decide⟩

/-- C1 (amended): for every parser whose column list is non-empty and
whose column names are pairwise distinct, `parse_data_line` returns the
field-based result for every data line, regardless of how many
whitespace fields the line has. -/
theorem C1_amended_field_based_when_names_distinct (p : TableParser) (line : List Char)
    (hne : p.columns ≠ []) (hnd : (p.columns.map Column.name).Nodup) :
    parseDataLine p line = parseFieldBased p.columns (pyRstrip line) :=
  parseDataLine_eq_fieldBased p line hne hnd

/-- C1 witness: concrete instantiation of the amended claim on a line
with fewer fields than columns. -/
theorem C1_witness :
    (mkTableParser "USER PID COMMAND".toList []).columns ≠ [] ∧
    ((mkTableParser "USER PID COMMAND".toList []).columns.map Column.name).Nodup ∧
    parseDataLine (mkTableParser "USER PID COMMAND".toList []) "root 1".toList =
      parseFieldBased (mkTableParser "USER PID COMMAND".toList []).columns
        (pyRstrip "root 1".toList) :=
  ⟨by decide, by decide,
    C1_amended_field_based_when_names_distinct _ _ (by decide) (by decide)⟩

/-- C2 (counterexample): for header `"A B"` with the single sample line
`"    x"`, the first descriptor produced by the inferencer has
`start = 4` and `end = 2`, so `start < end` fails. -/
theorem C2_counterexample :
    (mkTableParser "A B".toList ["    x".toList]).columns.get? 0 =
      some ⟨"A".toList, 4, some 2, some (-2)⟩ ∧
    ¬((4 : Nat) < 2) := by
  refine ⟨by decide, by decide⟩

/-- C2 (amended): there is exactly one descriptor per header token (the
descriptor names are the header tokens, in order) and the last
descriptor's end is always undefined; `start < end` (when end is
defined) holds whenever no sample data lines are supplied, but
sample-based refinement may violate it. -/
theorem C2_amended_descriptor_invariants (headerLine : List Char)
    (sampleLines : List (List Char)) :
    ((mkTableParser headerLine sampleLines).columns.map Column.name =
      (tokenize (pyStrip headerLine)).map Token.text) ∧
    (∀ c : Column, (mkTableParser headerLine sampleLines).columns.getLast? = some c →
      c.stop = none) ∧
    (sampleLines = [] →
      ∀ c ∈ (mkTableParser headerLine sampleLines).columns, ∀ e, c.stop = some e →
        c.start < e) := by
  refine ⟨mkTableParser_columns_names _ _, mkTableParser_columns_last _ _, ?_⟩
  intro hs
  subst hs
  exact mkTableParser_noSamples_start_lt_stop headerLine

/-- C2 witness: concrete instantiation of the amended claim on header
`"PID TTY"` with no sample lines. -/
theorem C2_witness :
    ((mkTableParser "PID TTY".toList []).columns.map Column.name =
      (tokenize (pyStrip "PID TTY".toList)).map Token.text) ∧
    (∀ c : Column, (mkTableParser "PID TTY".toList []).columns.getLast? = some c →
      c.stop = none) ∧
    (∀ c ∈ (mkTableParser "PID TTY".toList []).columns, ∀ e, c.stop = some e →
      c.start < e) :=
  ⟨(C2_amended_descriptor_invariants "PID TTY".toList []).1,
   (C2_amended_descriptor_invariants "PID TTY".toList []).2.1,
   (C2_amended_descriptor_invariants "PID TTY".toList []).2.2 rfl⟩

/-- C3 (counterexample): a row with value `"a"` under raw column
`"%CPU"` and value `"b"` under raw column `"CPU"` has two
distinct raw column names that both resolve to `"cpu"` under an empty
alias table, so the output has a single key and the value `"a"` is
lost. -/
theorem C3_counterexample :
    mapColumnsToFields [("%CPU".toList, "a".toList), ("CPU".toList, "b".toList)] [] =
      [("cpu".toList, "b".toList)] ∧
    "%CPU".toList ≠ "CPU".toList ∧
    (mapColumnsToFields [("%CPU".toList, "a".toList), ("CPU".toList, "b".toList)] []).length ≠
      2 := by
  refine ⟨by decide, by decide, by decide⟩

/-- C3 (amended): whenever the resolved (mapped-or-normalized) field
names of the row's columns are pairwise distinct, `map_columns_to_fields`
produces exactly one output key per column (output size equals row size)
and each column's value appears under its resolved key; columns whose
resolved names collide are merged, the later value winning. -/
theorem C3_amended_no_loss (row columnMapping : Row)
    (hnd : (row.map (fun p => resolveFieldName columnMapping p.1)).Nodup) :
    (mapColumnsToFields row columnMapping).length = row.length ∧
    ∀ p ∈ row, dictGet (mapColumnsToFields row columnMapping)
      (resolveFieldName columnMapping p.1) = some p.2 :=
  ⟨mapColumnsToFields_length row columnMapping hnd,
   fun p hp => mapColumnsToFields_get row columnMapping hnd p hp⟩

/-- C3 witness: concrete instantiation of the amended claim. -/
theorem C3_witness :
    (([("UNKNOWN_COLUMN".toList, "value".toList), ("USER".toList, "root".toList)].map
      (fun p => resolveFieldName [] p.1)).Nodup) ∧
    (mapColumnsToFields
      [("UNKNOWN_COLUMN".toList, "value".toList), ("USER".toList, "root".toList)] []).length =
      2 ∧
    dictGet (mapColumnsToFields
        [("UNKNOWN_COLUMN".toList, "value".toList), ("USER".toList, "root".toList)] [])
      (resolveFieldName [] "UNKNOWN_COLUMN".toList) = some "value".toList := by
  refine ⟨by decide, ?_, ?_⟩
  · have h := (C3_amended_no_loss
      [("UNKNOWN_COLUMN".toList, "value".toList), ("USER".toList, "root".toList)] []
      (by decide)).1
    simpa using h
  · exact (C3_amended_no_loss
      [("UNKNOWN_COLUMN".toList, "value".toList), ("USER".toList, "root".toList)] []
      (by decide)).2 ("UNKNOWN_COLUMN".toList, "value".toList) (by decide)

/-- C4: `detect_header_line` returns the index of the first line that,
after stripping, is non-blank, is not a `#` or `//` comment line, has at
least 2 whitespace-separated tokens, and has at least 2 tokens that
belong (case-insensitively) to the fixed header vocabulary; it returns
`none` exactly when no line qualifies. -/
theorem C4_detect_header_first (lines : List (List Char)) :
    (∀ i, detectHeaderLine lines = some i →
      ∃ l, lines.get? i = some l ∧ QualifiesAsHeader l ∧
        ∀ j l', j < i → lines.get? j = some l' → ¬ QualifiesAsHeader l') ∧
    (detectHeaderLine lines = none ↔ ∀ l ∈ lines, ¬ QualifiesAsHeader l) := by
  constructor
  · intro i h
    rcases detectHeaderAux_some lines 0 i h with ⟨_, _, ⟨l, hl, hlh⟩, hfirst⟩
    rw [Nat.sub_zero] at hl
    refine ⟨l, hl, (isHeaderLine_iff l).mp hlh, ?_⟩
    intro j l' hj hget hq
    have hfalse := hfirst j l' (by omega) hget
    rw [(isHeaderLine_iff l').mpr hq] at hfalse
    exact Bool.noConfusion hfalse
  · rw [show detectHeaderLine lines = detectHeaderAux lines 0 from rfl,
      detectHeaderAux_none lines 0]
    constructor
    · intro h l hl hq
      have hfalse := h l hl
      rw [(isHeaderLine_iff l).mpr hq] at hfalse
      exact Bool.noConfusion hfalse
    · intro h l hl
      cases hb : isHeaderLine l with
      | false => rfl
      | true => exact absurd ((isHeaderLine_iff l).mp hb) (h l hl)

/-- C4 witness: on `["", "# c", "USER PID COMMAND", "root 1 x"]` the
detector returns index 2, the first qualifying line. -/
theorem C4_witness :
    ∃ l, List.get? ["".toList, "# c".toList, "USER PID COMMAND".toList,
        "root 1 x".toList] 2 = some l ∧ QualifiesAsHeader l ∧
      ∀ j l', j < 2 →
        List.get? ["".toList, "# c".toList, "USER PID COMMAND".toList,
          "root 1 x".toList] j = some l' → ¬ QualifiesAsHeader l' :=
  (C4_detect_header_first _).1 2 (by decide)

/-- C5: when no line of the (skipped) input qualifies as a header,
`parse_table_output` returns the empty list. -/
theorem C5_no_header_no_rows (lines : List (List Char)) (skipLines : Nat)
    (h : detectHeaderLine (lines.drop skipLines) = none) :
    parseTableOutput lines skipLines = [] := by
  simp only [parseTableOutput]
  rw [h]

/-- C5 witness: a single data line with no vocabulary tokens. -/
theorem C5_witness :
    detectHeaderLine (["no header here".toList].drop 0) = none ∧
    parseTableOutput ["no header here".toList] 0 = [] :=
  ⟨by decide, C5_no_header_no_rows ["no header here".toList] 0 (by decide)⟩

/-- C6: in field-based parsing, when the whitespace fields outnumber the
columns the last column's value is all remaining fields joined by a
single space, and every column whose index is at or beyond the field
count gets the empty string; in particular, for header
`"USER PID COMMAND"` and data line `"root 1 /sbin/init --switched-root"`
the `COMMAND` value is `"/sbin/init --switched-root"`. -/
theorem C6_field_based_absorption (columns : List Column) (line : List Char)
    (hnd : (columns.map Column.name).Nodup) :
    (∀ (hne : columns ≠ []), columns.length < (pySplit line).length →
      dictGet (parseFieldBased columns line) ((columns.getLast hne).name) =
        some (joinSpace ((pySplit line).drop (columns.length - 1)))) ∧
    (∀ j (hj : j < columns.length), (pySplit line).length ≤ j →
      dictGet (parseFieldBased columns line) ((columns.get ⟨j, hj⟩).name) = some []) ∧
    dictGet (parseDataLine (mkTableParser "USER PID COMMAND".toList [])
        "root 1 /sbin/init --switched-root".toList) "COMMAND".toList =
      some "/sbin/init --switched-root".toList := by
  refine ⟨?_, ?_, by decide⟩
  · intro hne hcount
    have hj : columns.length - 1 < columns.length := by
      cases columns with
      | nil => exact absurd rfl hne
      | cons c cs => simp
    have hget := parseFieldBased_get columns line hnd (columns.length - 1) hj
    rw [List.get_eq_getElem] at hget
    rw [List.getLast_eq_getElem columns hne, hget]
    unfold fieldValue
    rw [if_pos (by omega : columns.length - 1 < (pySplit line).length)]
    simp
  · intro j hj hcount
    rw [parseFieldBased_get columns line hnd j hj]
    unfold fieldValue
    rw [if_neg (by omega)]

/-- C6 witness: concrete absorption and padding cases. -/
theorem C6_witness :
    dictGet (parseFieldBased (mkTableParser "USER PID COMMAND".toList []).columns
        "root 1 /sbin/init --switched-root".toList)
      (((mkTableParser "USER PID COMMAND".toList []).columns.getLast (by decide)).name) =
      some (joinSpace ((pySplit "root 1 /sbin/init --switched-root".toList).drop 2)) ∧
    dictGet (parseFieldBased (mkTableParser "USER PID COMMAND".toList []).columns
        "root".toList)
      (((mkTableParser "USER PID COMMAND".toList []).columns.get ⟨2, by decide⟩).name) =
      some [] := by
  constructor
  · have h := (C6_field_based_absorption
      (mkTableParser "USER PID COMMAND".toList []).columns
      "root 1 /sbin/init --switched-root".toList (by decide)).1 (by decide) (by decide)
    exact h
  · exact (C6_field_based_absorption
      (mkTableParser "USER PID COMMAND".toList []).columns
      "root".toList (by decide)).2.1 2 (by decide) (by decide)

/-- C7 (counterexample): normalizing `"%"` does not produce the
lowercase-replace-strip result `""`; the code falls back to the
lowercased original name when stripping leaves nothing. -/
theorem C7_counterexample :
    normalizeColumnName "%".toList = "%".toList ∧
    stripUnderscores (collapseUnderscores (replaceNonAlnum (pyLower "%".toList))) = [] ∧
    normalizeColumnName "%".toList ≠
      stripUnderscores (collapseUnderscores (replaceNonAlnum (pyLower "%".toList))) := by
  refine ⟨by decide, by decide, by decide⟩

/-- C7 (amended): normalization lowercases, replaces every run of
non-alphanumeric characters with one underscore and strips
leading/trailing underscores, except that when this leaves nothing the
lowercased original name is returned; the examples `"%CPU"` to `"cpu"`,
`"USER-NAME"` to `"user_name"`, and unmapped `"UNKNOWN_COLUMN"`
surfacing under `"unknown_column"` with its value intact all hold. -/
theorem C7_amended_normalization (name : List Char)
    (h : stripUnderscores (collapseUnderscores (replaceNonAlnum (pyLower name))) ≠ []) :
    normalizeColumnName name =
      stripUnderscores (collapseUnderscores (replaceNonAlnum (pyLower name))) ∧
    normalizeColumnName "%CPU".toList = "cpu".toList ∧
    normalizeColumnName "USER-NAME".toList = "user_name".toList ∧
    dictGet (mapColumnsToFields [("UNKNOWN_COLUMN".toList, "value".toList)] [])
      "unknown_column".toList = some "value".toList := by
  refine ⟨?_, by decide, by decide, by decide⟩
  have hdef : normalizeColumnName name =
      if stripUnderscores (collapseUnderscores (replaceNonAlnum (pyLower name))) = []
      then pyLower name
      else stripUnderscores (collapseUnderscores (replaceNonAlnum (pyLower name))) := rfl
  rw [hdef, if_neg h]

/-- C7 witness: the amended normalization rule at `"%CPU"`. -/
theorem C7_witness :
    stripUnderscores (collapseUnderscores (replaceNonAlnum (pyLower "%CPU".toList))) ≠ [] ∧
    normalizeColumnName "%CPU".toList =
      stripUnderscores (collapseUnderscores (replaceNonAlnum (pyLower "%CPU".toList))) :=
  ⟨by decide, (C7_amended_normalization "%CPU".toList (by decide)).1⟩

/-- C8: the engine is deterministic. Constructing the boundary
inferencer twice from equal header lines and equal sample line lists
yields equal column descriptor lists, and running the full pipeline
twice on equal line sequences yields equal output. -/
theorem C8_deterministic (h1 h2 : List Char) (s1 s2 : List (List Char))
    (lines1 lines2 : List (List Char)) (m : Row)
    (hh : h1 = h2) (hs : s1 = s2) (hl : lines1 = lines2) :
    (mkTableParser h1 s1).columns = (mkTableParser h2 s2).columns ∧
    fullPipeline lines1 m = fullPipeline lines2 m := by
  subst hh
  subst hs
  subst hl
  exact ⟨rfl, rfl⟩

/-- C8 witness: concrete instantiation on a two-line `ps`-like input. -/
theorem C8_witness :
    (mkTableParser "PID CMD".toList ["1 bash".toList]).columns =
      (mkTableParser "PID CMD".toList ["1 bash".toList]).columns ∧
    fullPipeline ["PID CMD".toList, "1 bash".toList] [] =
      fullPipeline ["PID CMD".toList, "1 bash".toList] [] :=
  C8_deterministic "PID CMD".toList "PID CMD".toList ["1 bash".toList] ["1 bash".toList]
    ["PID CMD".toList, "1 bash".toList] ["PID CMD".toList, "1 bash".toList] [] rfl rfl rfl

/-- C9: in positional parsing, every column whose start offset is at or
beyond the end of the line gets the empty string; every column receives
a value (the result's keys are exactly the column names), so no slice
can fail. -/
theorem C9_out_of_range_start_empty (columns : List Column) (line : List Char)
    (hnd : (columns.map Column.name).Nodup) :
    (∀ j (hj : j < columns.length), line.length ≤ (columns.get ⟨j, hj⟩).start →
      dictGet (parsePositional columns line) ((columns.get ⟨j, hj⟩).name) = some []) ∧
    dictKeys (parsePositional columns line) = columns.map Column.name := by
  constructor
  · intro j hj hstart
    rw [parsePositional_get columns line hnd j hj]
    set c : Column := columns.get ⟨j, hj⟩ with hc
    have hlt : ¬(c.start < line.length) := by omega
    cases hstop : c.stop with
    | none => simp [posColValue, hstop, hlt]
    | some e =>
      cases hb : (j == columns.length - 1) with
      | false => simp [posColValue, hstop, hb, hlt]
      | true => simp [posColValue, hstop, hb, hlt]
  · exact parsePositional_keys columns line hnd

/-- C9 witness: header `"USER PID"`, line `"ab"`: column `PID` starts at
offset 5, beyond the line's end, and gets `""`. -/
theorem C9_witness :
    (((mkTableParser "USER PID".toList []).columns.map Column.name).Nodup) ∧
    "ab".toList.length ≤
      ((mkTableParser "USER PID".toList []).columns.get ⟨1, by decide⟩).start ∧
    dictGet (parsePositional (mkTableParser "USER PID".toList []).columns "ab".toList)
      (((mkTableParser "USER PID".toList []).columns.get ⟨1, by decide⟩).name) = some [] :=
  ⟨by decide, by decide,
    (C9_out_of_range_start_empty (mkTableParser "USER PID".toList []).columns
      "ab".toList (by decide)).1 1 (by decide) (by decide)⟩

/-- C10: with a non-empty column list and pairwise-distinct column
names, `parse_data_line` returns a mapping whose keys are exactly the
column names in header order, for every line; with an empty column list
it returns the empty mapping. -/
theorem C10_keys_are_column_names (p : TableParser) (line : List Char) :
    (p.columns ≠ [] → (p.columns.map Column.name).Nodup →
      dictKeys (parseDataLine p line) = p.columns.map Column.name) ∧
    (p.columns = [] → parseDataLine p line = []) := by
  constructor
  · intro hne hnd
    rw [parseDataLine_eq_fieldBased p line hne hnd]
    exact parseFieldBased_keys p.columns (pyRstrip line) hnd
  · intro h
    unfold parseDataLine
    rw [if_pos h]

/-- C10 witness: the key list on a short line, and the empty-header
case. -/
theorem C10_witness :
    dictKeys (parseDataLine (mkTableParser "USER PID COMMAND".toList []) "root 1".toList) =
      (mkTableParser "USER PID COMMAND".toList []).columns.map Column.name ∧
    parseDataLine (mkTableParser "".toList []) "root 1".toList = [] :=
  ⟨(C10_keys_are_column_names (mkTableParser "USER PID COMMAND".toList [])
      "root 1".toList).1 (by decide) (by decide),
   (C10_keys_are_column_names (mkTableParser "".toList []) "root 1".toList).2 (by decide)⟩
